import Mathlib

/-!
Verification of the Sudoku core of `mr-sudoku` (`src/core/game.py`):
`BoardValidator`, `DifficultyManager`, `CellRemovalStrategy` and
`BacktrackingSudokuGenerator`, shallowly embedded in Lean.

A board is a list of rows of naturals (Python `List[List[int]]`), `0`
meaning empty.  Python's ambient randomness (`random.randint`,
`random.shuffle`) is modelled by an explicit stream of naturals that is
consumed draw by draw; an exhausted stream yields the lower bound of the
requested interval.  The solver's recursion is given explicit fuel; the
theorems show the fuel never runs out for adequate values, which is the
termination argument of the Python recursion.
-/

namespace Sudoku

/-- A Sudoku board: list of rows, each a list of cell values, 0 = empty. -/
abbrev Board := List (List Nat)

/-- Random source: the stream of values consumed by `random.randint` /
`random.shuffle`.  An exhausted stream yields the interval's lower bound. -/
abbrev RS := List Nat

/-- `board[row][col]` (total: out-of-range reads give 0, which never happens
on the 9×9 boards the code manipulates). -/
def getCell (b : Board) (r c : Nat) : Nat := (b.getD r []).getD c 0

/-- `board[row][col] = v` (no-op out of range, which never happens on the
9×9 boards the code manipulates). -/
def setCell (b : Board) (r c v : Nat) : Board := b.set r ((b.getD r []).set c v)

/-- `random.randint(lo, hi)`: inclusive uniform draw, consuming one stream
value; the value `n` is mapped into the interval as `lo + n % (hi + 1 - lo)`. -/
def randint (lo hi : Nat) : RS → Nat × RS
  | [] => (lo, [])
  | n :: rest => (lo + n % (hi + 1 - lo), rest)

/-- Swap of two list positions (helper for the Fisher–Yates shuffle). -/
def swapL (xs : List Nat) (i j : Nat) : List Nat :=
  (xs.set i (xs.getD j 0)).set j (xs.getD i 0)

/-- One pass of `random.shuffle`'s Fisher–Yates loop, from index `i` down
to 1: draw `j` uniformly in `[0, i]` and swap positions `i` and `j`. -/
def shuffleGo (xs : List Nat) : Nat → RS → List Nat × RS
  | 0, g => (xs, g)
  | i + 1, g =>
      let (j, g') := randint 0 (i + 1) g
      shuffleGo (swapL xs (i + 1) j) i g'

/-- `random.shuffle(x)`: Fisher–Yates over the whole list. -/
def shuffle (xs : List Nat) (g : RS) : List Nat × RS :=
  shuffleGo xs (xs.length - 1) g

/-- `BoardValidator.is_valid_position`: `num` may be placed at
`(row, col)` unless it already occurs in the row, the column, or the 3×3
box with top-left corner `(row / 3 * 3, col / 3 * 3)`. -/
def is_valid_position (board : Board) (row col num : Nat) : Bool :=
  if (board.getD row []).contains num then false
  else if ((List.range 9).map (fun i => getCell board i col)).contains num then false
  else if ((List.range' (row / 3 * 3) 3).any fun i =>
      (List.range' (col / 3 * 3) 3).any fun j => getCell board i j == num) then false
  else true

/-- `BoardValidator.can_place_number`: false on an occupied cell, otherwise
`is_valid_position`. -/
def can_place_number (board : Board) (row col value : Nat) : Bool :=
  if getCell board row col != 0 then false
  else is_valid_position board row col value

/-- The difficulty levels of the game.  Modelled from the spec: the module
`core/difficulty.py` defining the `Difficulty` enum is not part of the
provided sources; the spec fixes its members as Easy, Medium, Hard, Expert. -/
inductive Difficulty
  | EASY
  | MEDIUM
  | HARD
  | EXPERT
deriving DecidableEq, Repr

/-- Lower-casing of a string, character by character (the character-list
form of `str.lower()` for the ASCII difficulty names). -/
def lowerStr (s : String) : String := ⟨s.data.map Char.toLower⟩

/-- Modelled from the spec: resolution of a difficulty string to a
`Difficulty` member, as performed by `Difficulty(difficulty_str)` together
with `remove_cells`'s `except ValueError` fallback.  `core/difficulty.py`
is not part of the provided sources; the spec states that the string is
matched case-insensitively against {Easy, Medium, Hard, Expert} and that
unrecognized values fall back to Medium. -/
def Difficulty.ofString (s : String) : Difficulty :=
  if lowerStr s = "easy" then .EASY
  else if lowerStr s = "medium" then .MEDIUM
  else if lowerStr s = "hard" then .HARD
  else if lowerStr s = "expert" then .EXPERT
  else .MEDIUM

/-- `DifficultyManager.get_cells_to_keep`.  The Python parameter is
dynamically typed: `none` models any argument that is not one of the four
`Difficulty` members, which makes every `==` comparison false and reaches
the final `else` branch (warn, use the Medium range). -/
def get_cells_to_keep (difficulty : Option Difficulty) (g : RS) : Nat × RS :=
  match difficulty with
  | some .EASY => randint 40 45 g
  | some .MEDIUM => randint 32 39 g
  | some .HARD => randint 25 31 g
  | some .EXPERT => randint 17 24 g
  | none => randint 32 39 g

/-- The `while removed_count < cells_to_remove and attempts < max_attempts`
loop of `CellRemovalStrategy.remove_cells` (`max_attempts = 200`): draw a
random cell; if non-zero, zero it and count it as removed.  The upward
counter `attempts` of the Python loop is represented by the structurally
decreasing budget `remaining = max_attempts - attempts` (the guard
`attempts < 200` is exactly `remaining > 0`); `remove_cells` starts it at
200. -/
def removeLoop (board : Board) (cellsToRemove removed : Nat) :
    Nat → RS → Board × RS
  | 0, g => (board, g)
  | remaining + 1, g =>
      if removed < cellsToRemove then
        let (row, g₁) := randint 0 8 g
        let (col, g₂) := randint 0 8 g₁
        if getCell board row col ≠ 0 then
          removeLoop (setCell board row col 0) cellsToRemove (removed + 1) remaining g₂
        else
          removeLoop board cellsToRemove removed remaining g₂
      else (board, g)

/-- Iteration counter of `removeLoop`: how many times the `while` body is
entered.  Mirrors `removeLoop` step for step; used to state that the loop
body runs at most 200 times. -/
def removeLoopCount (board : Board) (cellsToRemove removed : Nat) :
    Nat → RS → Nat
  | 0, _ => 0
  | remaining + 1, g =>
      if removed < cellsToRemove then
        let (row, g₁) := randint 0 8 g
        let (col, g₂) := randint 0 8 g₁
        if getCell board row col ≠ 0 then
          removeLoopCount (setCell board row col 0) cellsToRemove (removed + 1) remaining g₂ + 1
        else
          removeLoopCount board cellsToRemove removed remaining g₂ + 1
      else 0

/-- `CellRemovalStrategy.remove_cells`: resolve the difficulty string
(fallback Medium), draw `cells_to_keep`, and run the removal loop for
`81 - cells_to_keep` cells. -/
def remove_cells (board : Board) (difficulty_str : String) (g : RS) : Board × RS :=
  let difficulty := Difficulty.ofString difficulty_str
  let (cellsToKeep, g₁) := get_cells_to_keep (some difficulty) g
  let cellsToRemove := 81 - cellsToKeep
  removeLoop board cellsToRemove 0 200 g₁

/-- `BacktrackingSudokuGenerator._find_empty`: first cell equal to 0 in
row-major order. -/
def findEmpty (b : Board) : Option (Nat × Nat) :=
  (List.range 9).findSome? fun r =>
    ((List.range 9).find? fun c => getCell b r c == 0).map fun c => (r, c)

/-- The `for num in nums` loop of `_solve_board`: place each valid
candidate, run the recursive solve (passed in as `solve`), and reset the
cell to 0 when the recursion fails. -/
def tryNums (solve : Board → RS → Option (Bool × Board × RS)) :
    List Nat → Board → Nat → Nat → RS → Option (Bool × Board × RS)
  | [], b, _, _, g => some (false, b, g)
  | n :: rest, b, r, c, g =>
      if is_valid_position b r c n then
        match solve (setCell b r c n) g with
        | none => none
        | some (true, b', g') => some (true, b', g')
        | some (false, b', g') => tryNums solve rest (setCell b' r c 0) r c g'
      else tryNums solve rest b r c g

/-- `BacktrackingSudokuGenerator._solve_board`, with explicit fuel (`none`
means the fuel ran out, which the termination theorem rules out for fuel
exceeding the number of empty cells).  Returns the Python boolean, the
board state at return (the Python method mutates `self.board`), and the
remaining random stream. -/
def solveB : Nat → Board → RS → Option (Bool × Board × RS)
  | 0, _, _ => none
  | fuel + 1, b, g =>
      match findEmpty b with
      | none => some (true, b, g)
      | some (r, c) =>
          let (nums, g₁) := shuffle (List.range' 1 9) g
          tryNums (solveB fuel) nums b r c g₁

/-- The empty 9×9 board `[[0]*9]*9` that `generate` resets to. -/
def emptyBoard : Board := List.replicate 9 (List.replicate 9 0)

/-- `BacktrackingSudokuGenerator.generate`: solve from the empty board
(fuel 82 exceeds the 81 empty cells); on solver failure return the Python
`(None, None)` (modelled `none`); otherwise snapshot the solution, remove
cells from a copy, and return `(puzzle, solution)`.  The outer `Option` is
the fuel artifact that the termination theorem rules out. -/
def generate (difficulty : String) (g : RS) :
    Option (Option (Board × Board) × RS) :=
  match solveB 82 emptyBoard g with
  | none => none
  | some (false, _, g₁) => some (none, g₁)
  | some (true, solved, g₁) =>
      let (puzzle, g₂) := remove_cells solved difficulty g₁
      some (some (puzzle, solved), g₂)

/-- A well-formed 9×9 board: 9 rows of 9 cells. -/
def WF (b : Board) : Prop := b.length = 9 ∧ ∀ row ∈ b, row.length = 9

/-- All 81 positions of the board, row-major. -/
def allPositions : List (Nat × Nat) :=
  (List.range 9).flatMap fun r => (List.range 9).map fun c => (r, c)

/-- Number of empty (0) cells among the 81 positions. -/
def numEmpty (b : Board) : Nat :=
  allPositions.countP fun p => getCell b p.1 p.2 == 0

/-- Number of filled (non-zero) cells among the 81 positions. -/
def numFilled (b : Board) : Nat :=
  allPositions.countP fun p => getCell b p.1 p.2 != 0

/-- Row `r` of the board, as the code uses it (`board[row]`). -/
def rowList (b : Board) (r : Nat) : List Nat := b.getD r []

/-- Column `c` of the board (`[board[i][col] for i in range(9)]`). -/
def colList (b : Board) (c : Nat) : List Nat :=
  (List.range 9).map fun r => getCell b r c

/-- Box `k` (0–8) of the board, with top-left corner
`(k / 3 * 3, k % 3 * 3)`, row-major inside the box. -/
def boxList (b : Board) (k : Nat) : List Nat :=
  (List.range' (k / 3 * 3) 3).flatMap fun i =>
    (List.range' (k % 3 * 3) 3).map fun j => getCell b i j

/-- A complete valid Sudoku solution: every row, column and box contains
each value 1–9 exactly once. -/
def validSolution (b : Board) : Prop :=
  ∀ v ∈ List.range' 1 9, ∀ k ∈ List.range 9,
    (rowList b k).count v = 1 ∧ (colList b k).count v = 1 ∧ (boxList b k).count v = 1

/-- Two in-range positions lie in a common row, column or 3×3 box. -/
def sameUnit (r c r' c' : Nat) : Prop :=
  r = r' ∨ c = c' ∨ (r / 3 = r' / 3 ∧ c / 3 = c' / 3)

/-- No Sudoku constraint is violated: two distinct cells of a common unit
never hold the same non-zero value. -/
def noConflict (b : Board) : Prop :=
  ∀ r c r' c', r < 9 → c < 9 → r' < 9 → c' < 9 → (r, c) ≠ (r', c') →
    sameUnit r c r' c' → getCell b r c ≠ 0 → getCell b r c ≠ getCell b r' c'

/-- All cell values are at most 9. -/
def cellsLe9 (b : Board) : Prop :=
  ∀ r c, r < 9 → c < 9 → getCell b r c ≤ 9

/-- Lower bound of the cells-to-keep interval drawn by
`get_cells_to_keep` (Medium for an unrecognized difficulty). -/
def keepLo : Option Difficulty → Nat
  | some .EASY => 40
  | some .MEDIUM => 32
  | some .HARD => 25
  | some .EXPERT => 17
  | none => 32

/-- Upper bound of the cells-to-keep interval drawn by
`get_cells_to_keep` (Medium for an unrecognized difficulty). -/
def keepHi : Option Difficulty → Nat
  | some .EASY => 45
  | some .MEDIUM => 39
  | some .HARD => 31
  | some .EXPERT => 24
  | none => 39

/-- The solution board produced by `generate "Easy"` on the all-zero
random stream (concrete witness data). -/
def wSolution : Board :=
  [[2, 3, 4, 5, 6, 7, 8, 9, 1], [5, 6, 7, 8, 9, 1, 2, 3, 4], [8, 9, 1, 2, 3, 4, 5, 6, 7],
   [3, 2, 5, 4, 7, 6, 9, 1, 8], [4, 7, 6, 9, 1, 8, 3, 2, 5], [9, 1, 8, 3, 2, 5, 4, 7, 6],
   [6, 4, 2, 7, 5, 3, 1, 8, 9], [7, 5, 3, 1, 8, 9, 6, 4, 2], [1, 8, 9, 6, 4, 2, 7, 5, 3]]

/-- The puzzle board produced by `generate "Easy"` on the all-zero random
stream: the removal loop hits cell (0,0) on its first draw and then only
redraws that (now empty) cell (concrete witness data). -/
def wPuzzle : Board :=
  [[0, 3, 4, 5, 6, 7, 8, 9, 1], [5, 6, 7, 8, 9, 1, 2, 3, 4], [8, 9, 1, 2, 3, 4, 5, 6, 7],
   [3, 2, 5, 4, 7, 6, 9, 1, 8], [4, 7, 6, 9, 1, 8, 3, 2, 5], [9, 1, 8, 3, 2, 5, 4, 7, 6],
   [6, 4, 2, 7, 5, 3, 1, 8, 9], [7, 5, 3, 1, 8, 9, 6, 4, 2], [1, 8, 9, 6, 4, 2, 7, 5, 3]]

/-- A board on which the backtracking solver fails: the first empty cell
is (0,0), values 2–9 are blocked by row 0 and value 1 by column 0
(concrete witness data for atomicity of failure). -/
def wFailBoard : Board :=
  [[0, 2, 3, 4, 5, 6, 7, 8, 9], [1, 0, 0, 0, 0, 0, 0, 0, 0], [0, 0, 0, 0, 0, 0, 0, 0, 0],
   [0, 0, 0, 0, 0, 0, 0, 0, 0], [0, 0, 0, 0, 0, 0, 0, 0, 0], [0, 0, 0, 0, 0, 0, 0, 0, 0],
   [0, 0, 0, 0, 0, 0, 0, 0, 0], [0, 0, 0, 0, 0, 0, 0, 0, 0], [0, 0, 0, 0, 0, 0, 0, 0, 0]]

/-- A board whose only non-zero cell is (0,0) = 5 (concrete witness data:
`is_valid_position` at (0,0) rejects 5 because the row scan sees the
target cell itself). -/
def wConflictBoard : Board :=
  [[5, 0, 0, 0, 0, 0, 0, 0, 0], [0, 0, 0, 0, 0, 0, 0, 0, 0], [0, 0, 0, 0, 0, 0, 0, 0, 0],
   [0, 0, 0, 0, 0, 0, 0, 0, 0], [0, 0, 0, 0, 0, 0, 0, 0, 0], [0, 0, 0, 0, 0, 0, 0, 0, 0],
   [0, 0, 0, 0, 0, 0, 0, 0, 0], [0, 0, 0, 0, 0, 0, 0, 0, 0], [0, 0, 0, 0, 0, 0, 0, 0, 0]]

/-! ### Basic board lemmas -/

lemma getCell_eq (b : Board) (r c : Nat) :
    getCell b r c = (b[r]?.getD [])[c]?.getD 0 := by
  simp [getCell, List.getD_eq_getElem?_getD]

lemma setCell_eq (b : Board) (r c v : Nat) :
    setCell b r c v = b.set r ((b[r]?.getD []).set c v) := by
  simp [setCell, List.getD_eq_getElem?_getD]

lemma set_getElem?_self {α : Type} (xs : List α) (i : Nat) (d : α) :
    xs.set i (xs[i]?.getD d) = xs := by
  apply List.ext_getElem?
  intro j
  rw [List.getElem?_set]
  split
  · next hij =>
      subst hij
      split
      · next h => simp [List.getElem?_eq_getElem h]
      · next h => rw [List.getElem?_eq_none (by omega)]
  · rfl

lemma getCell_emptyBoard (r c : Nat) : getCell emptyBoard r c = 0 := by
  rw [getCell_eq]
  unfold emptyBoard
  rw [List.getElem?_replicate]
  split
  · rw [Option.getD_some, List.getElem?_replicate]
    split
    · rfl
    · rfl
  · rw [Option.getD_none]
    rfl

lemma WF_emptyBoard : WF emptyBoard := by
  constructor
  · rfl
  · intro row hrow
    simp [emptyBoard, List.eq_of_mem_replicate hrow]

lemma WF.rowLen {b : Board} (h : WF b) {r : Nat} (hr : r < 9) :
    (b[r]?.getD []).length = 9 := by
  have hlt : r < b.length := by rw [h.1]; exact hr
  rw [List.getElem?_eq_getElem hlt]
  exact h.2 _ (List.getElem_mem hlt)

lemma WF_setCell {b : Board} (h : WF b) (r c v : Nat) : WF (setCell b r c v) := by
  rw [setCell_eq]
  rcases Nat.lt_or_ge r 9 with hr | hr
  · refine ⟨by simp [h.1], ?_⟩
    intro row hrow
    rcases List.mem_or_eq_of_mem_set hrow with hmem | heq
    · exact h.2 _ hmem
    · subst heq
      simp [h.rowLen hr]
  · rw [List.set_eq_of_length_le (by rw [h.1]; omega)]
    exact h

lemma getCell_setCell_same {b : Board} (h : WF b) {r c : Nat} (v : Nat)
    (hr : r < 9) (hc : c < 9) : getCell (setCell b r c v) r c = v := by
  have hrl : r < b.length := by rw [h.1]; exact hr
  have hcl : c < (b[r]?.getD []).length := by rw [h.rowLen hr]; exact hc
  rw [getCell_eq, setCell_eq, List.getElem?_set, if_pos rfl, if_pos hrl,
    Option.getD_some, List.getElem?_set, if_pos rfl, if_pos hcl, Option.getD_some]

lemma getCell_setCell_ne {b : Board} {r c r' c' : Nat} (v : Nat)
    (hne : r ≠ r' ∨ c ≠ c') : getCell (setCell b r c v) r' c' = getCell b r' c' := by
  rw [getCell_eq, setCell_eq, getCell_eq]
  by_cases hr : r = r'
  · subst hr
    have hcc : c ≠ c' := by tauto
    rcases Nat.lt_or_ge r b.length with hrl | hrl
    · rw [List.getElem?_set, if_pos rfl, if_pos hrl, Option.getD_some,
        List.getElem?_set, if_neg hcc]
    · rw [List.set_eq_of_length_le hrl]
  · rw [List.getElem?_set, if_neg hr]

lemma setCell_setCell (b : Board) (r c v w : Nat) :
    setCell (setCell b r c v) r c w = setCell b r c w := by
  rw [setCell_eq, setCell_eq, setCell_eq]
  rcases Nat.lt_or_ge r b.length with hrl | hrl
  · rw [List.getElem?_set, if_pos rfl, if_pos hrl, Option.getD_some,
      List.set_set, List.set_set]
  · have h1 : b.set r ((b[r]?.getD []).set c v) = b := List.set_eq_of_length_le hrl
    rw [h1]

lemma setCell_zero_of_empty {b : Board} {r c : Nat} (h : getCell b r c = 0) :
    setCell b r c 0 = b := by
  rw [getCell_eq] at h
  rw [setCell_eq]
  rcases Nat.lt_or_ge c (b[r]?.getD []).length with hcl | hcl
  · have hrow : (b[r]?.getD []).set c 0 = b[r]?.getD [] := by
      have h2 : (b[r]?.getD [])[c]? = some 0 := by
        rw [List.getElem?_eq_getElem hcl] at h ⊢
        rw [Option.getD_some] at h
        rw [h]
      calc (b[r]?.getD []).set c 0
          = (b[r]?.getD []).set c ((b[r]?.getD [])[c]?.getD 0) := by rw [h2]; rfl
        _ = b[r]?.getD [] := set_getElem?_self _ _ _
    rw [hrow]
    rcases Nat.lt_or_ge r b.length with hrl | hrl
    · calc b.set r (b[r]?.getD [])
          = b.set r (b[r]?.getD []) := rfl
        _ = b := set_getElem?_self b r []
    · rw [List.set_eq_of_length_le hrl]
  · rw [List.set_eq_of_length_le hcl]
    exact set_getElem?_self b r []

/-! ### Counting lemmas -/

lemma mem_allPositions {p : Nat × Nat} : p ∈ allPositions ↔ p.1 < 9 ∧ p.2 < 9 := by
  unfold allPositions
  rw [List.mem_flatMap]
  constructor
  · rintro ⟨r, hr, hp⟩
    rcases List.mem_map.1 hp with ⟨c, hc, rfl⟩
    exact ⟨List.mem_range.1 hr, List.mem_range.1 hc⟩
  · rintro ⟨h1, h2⟩
    exact ⟨p.1, List.mem_range.2 h1, List.mem_map.2 ⟨p.2, List.mem_range.2 h2, rfl⟩⟩

lemma nodup_allPositions : allPositions.Nodup := by decide

lemma length_allPositions : allPositions.length = 81 := by decide

/-- If `p` holds at `a`, `q` fails at `a`, the predicates agree elsewhere
and `a` occurs exactly once, then `p` counts exactly one more than `q`. -/
lemma countP_eq_succ_countP {α : Type} {p q : α → Bool} {a : α} :
    ∀ {l : List α}, (∀ x ∈ l, x ≠ a → p x = q x) → p a = true → q a = false →
      a ∈ l → l.Nodup → l.countP p = l.countP q + 1
  | [], _, _, _, hmem, _ => by simp at hmem
  | x :: xs, hagree, hpa, hqa, hmem, hnd => by
    rw [List.countP_cons, List.countP_cons]
    have hxnot : x ∉ xs := (List.nodup_cons.1 hnd).1
    have hndxs : xs.Nodup := (List.nodup_cons.1 hnd).2
    by_cases hxa : x = a
    · subst hxa
      have : xs.countP p = xs.countP q := by
        apply List.countP_congr
        intro y hy
        have hyx : y ≠ x := fun h => hxnot (h ▸ hy)
        rw [hagree y (List.mem_cons_of_mem _ hy) hyx]
      rw [this, hpa, hqa]
      simp
    · have hx : p x = q x := hagree x (List.mem_cons_self _ _) hxa
      have hmem' : a ∈ xs := by
        rcases List.mem_cons.1 hmem with h | h
        · exact absurd h.symm hxa
        · exact h
      have ih := countP_eq_succ_countP
        (fun y hy hya => hagree y (List.mem_cons_of_mem _ hy) hya) hpa hqa hmem' hndxs
      rw [ih, hx]
      cases hq : q x <;> simp [hq]

lemma numEmpty_setCell {b : Board} (h : WF b) {r c v : Nat} (hr : r < 9) (hc : c < 9)
    (hempty : getCell b r c = 0) (hv : v ≠ 0) :
    numEmpty b = numEmpty (setCell b r c v) + 1 := by
  unfold numEmpty
  apply countP_eq_succ_countP (a := (r, c))
  · rintro ⟨x, y⟩ _ hne
    have : r ≠ x ∨ c ≠ y := by
      by_contra hcon
      push_neg at hcon
      exact hne (by simp [hcon.1.symm, hcon.2.symm])
    simp only [getCell_setCell_ne v this]
  · simpa using hempty
  · have := getCell_setCell_same h v hr hc
    simpa [this] using hv
  · exact mem_allPositions.2 ⟨hr, hc⟩
  · exact nodup_allPositions

lemma numFilled_setCell_zero {b : Board} (h : WF b) {r c : Nat} (hr : r < 9) (hc : c < 9)
    (hfilled : getCell b r c ≠ 0) :
    numFilled b = numFilled (setCell b r c 0) + 1 := by
  unfold numFilled
  apply countP_eq_succ_countP (a := (r, c))
  · rintro ⟨x, y⟩ _ hne
    have : r ≠ x ∨ c ≠ y := by
      by_contra hcon
      push_neg at hcon
      exact hne (by simp [hcon.1.symm, hcon.2.symm])
    simp only [getCell_setCell_ne 0 this]
  · simpa using hfilled
  · simp [getCell_setCell_same h 0 hr hc]
  · exact mem_allPositions.2 ⟨hr, hc⟩
  · exact nodup_allPositions

lemma numEmpty_emptyBoard : numEmpty emptyBoard = 81 := by decide

/-! ### `findEmpty` lemmas -/

lemma findEmpty_some {b : Board} {r c : Nat} (h : findEmpty b = some (r, c)) :
    r < 9 ∧ c < 9 ∧ getCell b r c = 0 := by
  unfold findEmpty at h
  rcases List.findSome?_eq_some_iff.1 h with ⟨l₁, a, l₂, hsplit, ha, -⟩
  rcases Option.map_eq_some'.1 ha with ⟨c', hfind, heq⟩
  injection heq with h1 h2
  rw [h1] at hsplit hfind
  rw [h2] at hfind
  have hmem : r ∈ List.range 9 := by
    rw [hsplit]
    exact List.mem_append_right _ (List.mem_cons_self _ _)
  refine ⟨List.mem_range.1 hmem, ?_, ?_⟩
  · exact List.mem_range.1 (List.mem_of_find?_eq_some hfind)
  · simpa using List.find?_some hfind

lemma findEmpty_none {b : Board} (h : findEmpty b = none) :
    ∀ r c, r < 9 → c < 9 → getCell b r c ≠ 0 := by
  intro r c hr hc
  unfold findEmpty at h
  have hr' := List.findSome?_eq_none_iff.1 h r (List.mem_range.2 hr)
  rw [Option.map_eq_none'] at hr'
  have := List.find?_eq_none.1 hr' c (List.mem_range.2 hc)
  simpa using this

lemma numFilled_of_complete {b : Board} (h : ∀ r c, r < 9 → c < 9 → getCell b r c ≠ 0) :
    numFilled b = 81 := by
  unfold numFilled
  rw [← length_allPositions]
  rw [List.countP_eq_length]
  rintro ⟨r, c⟩ hmem
  rcases mem_allPositions.1 hmem with ⟨hr, hc⟩
  simpa using h r c hr hc

/-! ### Randomness lemmas -/

lemma randint_fst_bounds {lo hi : Nat} (h : lo ≤ hi) (g : RS) :
    lo ≤ (randint lo hi g).1 ∧ (randint lo hi g).1 ≤ hi := by
  cases g with
  | nil => exact ⟨Nat.le_refl _, h⟩
  | cons n rest =>
      have hmod : n % (hi + 1 - lo) < hi + 1 - lo := Nat.mod_lt _ (by omega)
      have heq : randint lo hi (n :: rest) = (lo + n % (hi + 1 - lo), rest) := rfl
      rw [heq]
      constructor
      · exact Nat.le_add_right _ _
      · simp only
        omega

lemma length_swapL (xs : List Nat) (i j : Nat) : (swapL xs i j).length = xs.length := by
  simp [swapL]

lemma mem_swapL {xs : List Nat} {i j a : Nat} (hi : i < xs.length) (hj : j < xs.length)
    (h : a ∈ swapL xs i j) : a ∈ xs := by
  unfold swapL at h
  rcases List.mem_or_eq_of_mem_set h with h' | heq
  · rcases List.mem_or_eq_of_mem_set h' with h'' | heq
    · exact h''
    · subst heq
      rw [List.getD_eq_getElem?_getD, List.getElem?_eq_getElem hj]
      exact List.getElem_mem hj
  · subst heq
    rw [List.getD_eq_getElem?_getD, List.getElem?_eq_getElem hi]
    exact List.getElem_mem hi

lemma shuffleGo_subset : ∀ (i : Nat) (xs : List Nat) (g : RS), i < xs.length →
    (shuffleGo xs i g).1 ⊆ xs
  | 0, xs, g, _ => by
      unfold shuffleGo
      exact fun _ h => h
  | i + 1, xs, g, hi => by
      unfold shuffleGo
      have hj : (randint 0 (i + 1) g).1 ≤ i + 1 := (randint_fst_bounds (by omega) g).2
      have hlen : i < (swapL xs (i + 1) ((randint 0 (i + 1) g).1)).length := by
        rw [length_swapL]; omega
      intro a ha
      have hsub := shuffleGo_subset i _ ((randint 0 (i + 1) g).2) hlen
      exact mem_swapL hi (by omega) (hsub ha)

lemma shuffle_range_mem {g : RS} {n : Nat}
    (h : n ∈ (shuffle (List.range' 1 9) g).1) : 1 ≤ n ∧ n ≤ 9 := by
  unfold shuffle at h
  have hsub := shuffleGo_subset ((List.range' 1 9).length - 1) (List.range' 1 9) g
    (by simp)
  have hmem := hsub h
  rcases List.mem_range'.1 hmem with ⟨i, hi, rfl⟩
  omega

/-! ### Solver: atomicity of failure -/

lemma tryNums_false_eq {solve : Board → RS → Option (Bool × Board × RS)}
    (hsolve : ∀ b₀ g₀ b₁ g₁, solve b₀ g₀ = some (false, b₁, g₁) → b₁ = b₀) :
    ∀ (nums : List Nat) (b : Board) (r c : Nat) (g : RS) {b' : Board} {g' : RS},
      getCell b r c = 0 → tryNums solve nums b r c g = some (false, b', g') → b' = b := by
  intro nums
  induction nums with
  | nil =>
      intro b r c g b' g' hcell h
      unfold tryNums at h
      simp only [Option.some.injEq, Prod.mk.injEq] at h
      exact h.2.1.symm
  | cons n rest ih =>
      intro b r c g b' g' hcell h
      unfold tryNums at h
      by_cases hvalid : is_valid_position b r c n = true
      · rw [if_pos hvalid] at h
        cases hs : solve (setCell b r c n) g with
        | none => rw [hs] at h; simp at h
        | some res =>
            obtain ⟨ok, b₁, g₁⟩ := res
            rw [hs] at h
            cases ok with
            | true => simp at h
            | false =>
                simp only at h
                have hb₁ : b₁ = setCell b r c n := hsolve _ _ _ _ hs
                have hreset : setCell b₁ r c 0 = b := by
                  rw [hb₁, setCell_setCell, setCell_zero_of_empty hcell]
                rw [hreset] at h
                exact ih b r c g₁ hcell h
      · rw [if_neg hvalid] at h
        exact ih b r c g hcell h

lemma solveB_false : ∀ (fuel : Nat) (b : Board) (g : RS) {b' : Board} {g' : RS},
    solveB fuel b g = some (false, b', g') → b' = b := by
  intro fuel
  induction fuel with
  | zero =>
      intro b g b' g' h
      simp [solveB] at h
  | succ fuel ih =>
      intro b g b' g' h
      unfold solveB at h
      cases hfe : findEmpty b with
      | none => rw [hfe] at h; simp at h
      | some rc =>
          obtain ⟨r, c⟩ := rc
          rw [hfe] at h
          simp only at h
          have hcell : getCell b r c = 0 := (findEmpty_some hfe).2.2
          exact tryNums_false_eq (fun b₀ g₀ b₁ g₁ hs => ih b₀ g₀ hs) _ b r c _ hcell h

/-! ### Solver: the fuel never runs out (termination) -/

lemma tryNums_isSome {fuel : Nat}
    (hsolve : ∀ b₀ g₀, WF b₀ → numEmpty b₀ < fuel → (solveB fuel b₀ g₀).isSome) :
    ∀ (nums : List Nat) (b : Board) (r c : Nat) (g : RS),
      WF b → numEmpty b ≤ fuel → r < 9 → c < 9 → getCell b r c = 0 →
      (∀ n ∈ nums, n ≠ 0) →
      (tryNums (solveB fuel) nums b r c g).isSome := by
  intro nums
  induction nums with
  | nil =>
      intro b r c g _ _ _ _ _ _
      unfold tryNums
      rfl
  | cons n rest ih =>
      intro b r c g hwf hfuel hr hc hcell hnums
      unfold tryNums
      by_cases hvalid : is_valid_position b r c n = true
      · rw [if_pos hvalid]
        have hn : n ≠ 0 := hnums n (List.mem_cons_self _ _)
        have hwf₁ : WF (setCell b r c n) := WF_setCell hwf r c n
        have hlt : numEmpty (setCell b r c n) < fuel := by
          have := numEmpty_setCell hwf hr hc hcell hn
          omega
        have := hsolve (setCell b r c n) g hwf₁ hlt
        cases hs : solveB fuel (setCell b r c n) g with
        | none => rw [hs] at this; simp at this
        | some res =>
            obtain ⟨ok, b₁, g₁⟩ := res
            cases ok with
            | true => simp only; rfl
            | false =>
                simp only
                have hb₁ : b₁ = setCell b r c n := solveB_false fuel _ g hs
                have hreset : setCell b₁ r c 0 = b := by
                  rw [hb₁, setCell_setCell, setCell_zero_of_empty hcell]
                rw [hreset]
                exact ih b r c g₁ hwf hfuel hr hc hcell
                  (fun m hm => hnums m (List.mem_cons_of_mem _ hm))
      · rw [if_neg hvalid]
        exact ih b r c g hwf hfuel hr hc hcell
          (fun m hm => hnums m (List.mem_cons_of_mem _ hm))

lemma solveB_isSome : ∀ (fuel : Nat) (b : Board) (g : RS),
    WF b → numEmpty b < fuel → (solveB fuel b g).isSome := by
  intro fuel
  induction fuel with
  | zero =>
      intro b g _ h
      omega
  | succ fuel ih =>
      intro b g hwf hlt
      unfold solveB
      cases hfe : findEmpty b with
      | none => rfl
      | some rc =>
          obtain ⟨r, c⟩ := rc
          simp only
          obtain ⟨hr, hc, hcell⟩ := findEmpty_some hfe
          apply tryNums_isSome ih _ b r c _ hwf (by omega) hr hc hcell
          intro n hn
          have := shuffle_range_mem hn
          omega

/-! ### What `is_valid_position` guarantees -/

lemma is_valid_position_iff (b : Board) (row col num : Nat) :
    is_valid_position b row col num = true ↔
      num ∉ b.getD row [] ∧
      (∀ i, i < 9 → getCell b i col ≠ num) ∧
      (∀ i j, row / 3 * 3 ≤ i → i < row / 3 * 3 + 3 → col / 3 * 3 ≤ j →
        j < col / 3 * 3 + 3 → getCell b i j ≠ num) := by
  unfold is_valid_position
  split
  · next hrow =>
      refine iff_of_false (by simp) ?_
      intro hcon
      exact hcon.1 (by simpa [List.contains_iff_exists_mem_beq] using
        (by simpa using hrow : num ∈ b.getD row []))
  · next hrow =>
      split
      · next hcol =>
          refine iff_of_false (by simp) ?_
          intro hcon
          have hcol' : ∃ i, i < 9 ∧ getCell b i col = num := by simpa using hcol
          rcases hcol' with ⟨i, hi, hgi⟩
          exact hcon.2.1 i hi hgi
      · next hcol =>
          split
          · next hbox =>
              refine iff_of_false (by simp) ?_
              intro hcon
              rcases List.any_eq_true.1 hbox with ⟨i, hi, hinner⟩
              rcases List.any_eq_true.1 hinner with ⟨j, hj, hgj⟩
              rcases List.mem_range'.1 hi with ⟨a, ha, rfl⟩
              rcases List.mem_range'.1 hj with ⟨d, hd, rfl⟩
              exact hcon.2.2 (row / 3 * 3 + 1 * a) (col / 3 * 3 + 1 * d)
                (by omega) (by omega) (by omega) (by omega) (by simpa using hgj)
          · next hbox =>
              refine iff_of_true rfl ?_
              refine ⟨by simpa using hrow, ?_, ?_⟩
              · intro i hi hgi
                apply hcol
                simp only [List.contains_eq_any_beq, List.any_eq_true]
                exact ⟨getCell b i col, List.mem_map.2 ⟨i, List.mem_range.2 hi, rfl⟩,
                  by simp [hgi]⟩
              · intro i j hi1 hi2 hj1 hj2 hgij
                apply hbox
                rw [List.any_eq_true]
                refine ⟨i, List.mem_range'.2 ⟨i - row / 3 * 3, by omega, by omega⟩, ?_⟩
                rw [List.any_eq_true]
                exact ⟨j, List.mem_range'.2 ⟨j - col / 3 * 3, by omega, by omega⟩,
                  by simp [hgij]⟩

lemma getCell_mem_row {b : Board} (hwf : WF b) {r j : Nat} (hr : r < 9) (hj : j < 9) :
    getCell b r j ∈ b.getD r [] := by
  have hlen : (b.getD r []).length = 9 := by
    rw [List.getD_eq_getElem?_getD]
    exact hwf.rowLen hr
  have hjl : j < (b.getD r []).length := by omega
  rw [getCell_eq, ← List.getD_eq_getElem?_getD b r []]
  rw [List.getElem?_eq_getElem hjl, Option.getD_some]
  exact List.getElem_mem hjl

lemma valid_row_cells {b : Board} {row col num : Nat} (hwf : WF b)
    (h : is_valid_position b row col num = true) (hr : row < 9) :
    ∀ j, j < 9 → getCell b row j ≠ num := by
  intro j hj hcon
  exact ((is_valid_position_iff b row col num).1 h).1 (hcon ▸ getCell_mem_row hwf hr hj)

lemma valid_col_cells {b : Board} {row col num : Nat}
    (h : is_valid_position b row col num = true) :
    ∀ i, i < 9 → getCell b i col ≠ num :=
  ((is_valid_position_iff b row col num).1 h).2.1

lemma valid_box_cells {b : Board} {row col num : Nat}
    (h : is_valid_position b row col num = true) :
    ∀ i j, i / 3 = row / 3 → j / 3 = col / 3 → getCell b i j ≠ num := by
  intro i j hi hj
  exact ((is_valid_position_iff b row col num).1 h).2.2 i j
    (by omega) (by omega) (by omega) (by omega)

/-! ### Invariant preservation by a valid placement -/

lemma noConflict_emptyBoard : noConflict emptyBoard := by
  intro r c r' c' _ _ _ _ _ _ hnz
  exact absurd (getCell_emptyBoard r c) hnz

lemma cellsLe9_emptyBoard : cellsLe9 emptyBoard := by
  intro r c _ _
  rw [getCell_emptyBoard]
  omega

lemma noConflict_setCell {b : Board} {r c n : Nat} (hwf : WF b) (hnc : noConflict b)
    (hr : r < 9) (hc : c < 9) (hvalid : is_valid_position b r c n = true) :
    noConflict (setCell b r c n) := by
  intro x y x' y' hx hy hx' hy' hne hunit hnz
  by_cases hxy : (x, y) = (r, c)
  · have hx1 : r = x := (congrArg Prod.fst hxy).symm
    have hy1 : c = y := (congrArg Prod.snd hxy).symm
    subst hx1; subst hy1
    have hne' : r ≠ x' ∨ c ≠ y' := by
      by_contra hcon
      push_neg at hcon
      exact hne (by rw [hcon.1, hcon.2])
    rw [getCell_setCell_same hwf n hx hy, getCell_setCell_ne n hne']
    rcases hunit with h | h | h
    · rw [← h]
      exact Ne.symm (valid_row_cells hwf hvalid hr y' hy')
    · rw [← h]
      exact Ne.symm (valid_col_cells hvalid x' hx')
    · exact Ne.symm (valid_box_cells hvalid x' y' h.1.symm h.2.symm)
  · have hne1 : r ≠ x ∨ c ≠ y := by
      by_contra hcon
      push_neg at hcon
      exact hxy (by rw [hcon.1, hcon.2])
    rw [getCell_setCell_ne n hne1] at hnz ⊢
    by_cases hxy' : (x', y') = (r, c)
    · have hx1 : r = x' := (congrArg Prod.fst hxy').symm
      have hy1 : c = y' := (congrArg Prod.snd hxy').symm
      subst hx1; subst hy1
      rw [getCell_setCell_same hwf n hx' hy']
      rcases hunit with h | h | h
      · rw [h]
        exact valid_row_cells hwf hvalid hr y hy
      · rw [h]
        exact valid_col_cells hvalid x hx
      · exact valid_box_cells hvalid x y h.1 h.2
    · have hne2 : r ≠ x' ∨ c ≠ y' := by
        by_contra hcon
        push_neg at hcon
        exact hxy' (by rw [hcon.1, hcon.2])
      rw [getCell_setCell_ne n hne2]
      exact hnc x y x' y' hx hy hx' hy' hne hunit hnz

lemma cellsLe9_setCell {b : Board} {r c n : Nat} (hwf : WF b) (hle : cellsLe9 b)
    (hr : r < 9) (hc : c < 9) (hn : n ≤ 9) : cellsLe9 (setCell b r c n) := by
  intro x y hx hy
  by_cases hxy : r = x ∧ c = y
  · obtain ⟨rfl, rfl⟩ := hxy
    rw [getCell_setCell_same hwf n hr hc]
    exact hn
  · rw [getCell_setCell_ne n (by tauto)]
    exact hle x y hx hy

/-! ### Solver: soundness of success -/

lemma tryNums_sound {fuel : Nat}
    (hsolve : ∀ b₀ g₀ b₁ g₁, WF b₀ → noConflict b₀ → cellsLe9 b₀ →
      solveB fuel b₀ g₀ = some (true, b₁, g₁) →
      WF b₁ ∧ noConflict b₁ ∧ cellsLe9 b₁ ∧ findEmpty b₁ = none) :
    ∀ (nums : List Nat) (b : Board) (r c : Nat) (g : RS) {b' : Board} {g' : RS},
      WF b → noConflict b → cellsLe9 b → r < 9 → c < 9 → getCell b r c = 0 →
      (∀ n ∈ nums, n ≤ 9) →
      tryNums (solveB fuel) nums b r c g = some (true, b', g') →
      WF b' ∧ noConflict b' ∧ cellsLe9 b' ∧ findEmpty b' = none := by
  intro nums
  induction nums with
  | nil =>
      intro b r c g b' g' _ _ _ _ _ _ _ h
      unfold tryNums at h
      simp at h
  | cons n rest ih =>
      intro b r c g b' g' hwf hnc hle hr hc hcell hnums h
      unfold tryNums at h
      by_cases hvalid : is_valid_position b r c n = true
      · rw [if_pos hvalid] at h
        cases hs : solveB fuel (setCell b r c n) g with
        | none => rw [hs] at h; simp at h
        | some res =>
            obtain ⟨ok, b₁, g₁⟩ := res
            rw [hs] at h
            cases ok with
            | true =>
                simp only [Option.some.injEq, Prod.mk.injEq] at h
                obtain ⟨-, hb, hg⟩ := h
                subst hb
                exact hsolve _ _ _ _ (WF_setCell hwf r c n)
                  (noConflict_setCell hwf hnc hr hc hvalid)
                  (cellsLe9_setCell hwf hle hr hc (hnums n (List.mem_cons_self _ _)))
                  hs
            | false =>
                simp only at h
                have hb₁ : b₁ = setCell b r c n := solveB_false fuel _ g hs
                have hreset : setCell b₁ r c 0 = b := by
                  rw [hb₁, setCell_setCell, setCell_zero_of_empty hcell]
                rw [hreset] at h
                exact ih b r c g₁ hwf hnc hle hr hc hcell
                  (fun m hm => hnums m (List.mem_cons_of_mem _ hm)) h
      · rw [if_neg hvalid] at h
        exact ih b r c g hwf hnc hle hr hc hcell
          (fun m hm => hnums m (List.mem_cons_of_mem _ hm)) h

lemma solveB_sound : ∀ (fuel : Nat) (b : Board) (g : RS) {b' : Board} {g' : RS},
    WF b → noConflict b → cellsLe9 b → solveB fuel b g = some (true, b', g') →
    WF b' ∧ noConflict b' ∧ cellsLe9 b' ∧ findEmpty b' = none := by
  intro fuel
  induction fuel with
  | zero =>
      intro b g b' g' _ _ _ h
      simp [solveB] at h
  | succ fuel ih =>
      intro b g b' g' hwf hnc hle h
      unfold solveB at h
      cases hfe : findEmpty b with
      | none =>
          rw [hfe] at h
          simp only [Option.some.injEq, Prod.mk.injEq] at h
          obtain ⟨-, hb, -⟩ := h
          subst hb
          exact ⟨hwf, hnc, hle, hfe⟩
      | some rc =>
          obtain ⟨r, c⟩ := rc
          rw [hfe] at h
          simp only at h
          obtain ⟨hr, hc, hcell⟩ := findEmpty_some hfe
          apply tryNums_sound (fun b₀ g₀ b₁ g₁ => ih b₀ g₀) _ b r c _
            hwf hnc hle hr hc hcell _ h
          intro n hn
          exact (shuffle_range_mem hn).2

/-! ### From the invariants to a valid solution (pigeonhole per unit) -/

lemma rowList_getElem? {b : Board} (hwf : WF b) {k m : Nat} (hk : k < 9) (hm : m < 9) :
    (rowList b k)[m]? = some (getCell b k m) := by
  have hlen : (rowList b k).length = 9 := by
    unfold rowList
    rw [List.getD_eq_getElem?_getD]
    exact hwf.rowLen hk
  rw [List.getElem?_eq_getElem (by omega)]
  congr 1
  rw [getCell_eq, ← List.getD_eq_getElem?_getD b k []]
  show (rowList b k)[m] = (rowList b k)[m]?.getD 0
  rw [List.getElem?_eq_getElem (by omega), Option.getD_some]

lemma length_rowList {b : Board} (hwf : WF b) {k : Nat} (hk : k < 9) :
    (rowList b k).length = 9 := by
  unfold rowList
  rw [List.getD_eq_getElem?_getD]
  exact hwf.rowLen hk

lemma colList_getElem? (b : Board) {k m : Nat} (hm : m < 9) :
    (colList b k)[m]? = some (getCell b m k) := by
  unfold colList
  rw [List.getElem?_map, List.getElem?_range hm]
  rfl

lemma length_colList (b : Board) (k : Nat) : (colList b k).length = 9 := by
  simp [colList]

lemma boxList_getElem? (b : Board) {k m : Nat} (hm : m < 9) :
    (boxList b k)[m]? = some (getCell b (k / 3 * 3 + m / 3) (k % 3 * 3 + m % 3)) := by
  interval_cases m <;> rfl

lemma length_boxList (b : Board) (k : Nat) : (boxList b k).length = 9 := rfl

/-- A 9-element list of pairwise-conflicting cell values of a complete
conflict-free board has no duplicates. -/
lemma nodup_unit {b : Board} (hnc : noConflict b)
    (hcomplete : ∀ r c, r < 9 → c < 9 → getCell b r c ≠ 0)
    (L : List Nat) (pos : Nat → Nat × Nat) (hlen : L.length = 9)
    (hposlt : ∀ m, m < 9 → (pos m).1 < 9 ∧ (pos m).2 < 9)
    (hget : ∀ m, m < 9 → L[m]? = some (getCell b (pos m).1 (pos m).2))
    (hinj : ∀ m m', m < 9 → m' < 9 → pos m = pos m' → m = m')
    (hunit : ∀ m m', m < 9 → m' < 9 →
      sameUnit (pos m).1 (pos m).2 (pos m').1 (pos m').2) :
    L.Nodup := by
  rw [List.nodup_iff_getElem?_ne_getElem?]
  intro i j hij hj
  have hj9 : j < 9 := by omega
  have hi9 : i < 9 := by omega
  rw [hget i hi9, hget j hj9]
  intro heq
  simp only [Option.some.injEq] at heq
  have hposne : ((pos i).1, (pos i).2) ≠ ((pos j).1, (pos j).2) := by
    intro hcon
    have : pos i = pos j := by
      rw [← Prod.mk.eta (p := pos i), ← Prod.mk.eta (p := pos j)]
      exact hcon
    exact absurd (hinj i j hi9 hj9 this) (by omega)
  exact hnc (pos i).1 (pos i).2 (pos j).1 (pos j).2
    (hposlt i hi9).1 (hposlt i hi9).2 (hposlt j hj9).1 (hposlt j hj9).2
    hposne (hunit i j hi9 hj9)
    (hcomplete _ _ (hposlt i hi9).1 (hposlt i hi9).2) heq

/-- Values of such a list all lie in 1…9. -/
lemma mem_unit_range {b : Board} (hle : cellsLe9 b)
    (hcomplete : ∀ r c, r < 9 → c < 9 → getCell b r c ≠ 0)
    (L : List Nat) (pos : Nat → Nat × Nat) (hlen : L.length = 9)
    (hposlt : ∀ m, m < 9 → (pos m).1 < 9 ∧ (pos m).2 < 9)
    (hget : ∀ m, m < 9 → L[m]? = some (getCell b (pos m).1 (pos m).2)) :
    ∀ x ∈ L, x ∈ List.range' 1 9 := by
  intro x hx
  rcases List.mem_iff_getElem.1 hx with ⟨m, hm, hxm⟩
  have hm9 : m < 9 := by omega
  have := hget m hm9
  rw [List.getElem?_eq_getElem hm, hxm] at this
  simp only [Option.some.injEq] at this
  have h1 := hcomplete _ _ (hposlt m hm9).1 (hposlt m hm9).2
  have h2 := hle _ _ (hposlt m hm9).1 (hposlt m hm9).2
  rw [List.mem_range']
  exact ⟨x - 1, by omega, by omega⟩

/-- A duplicate-free 9-element list over 1…9 contains each value once. -/
lemma count_unit (L : List Nat) (hlen : L.length = 9)
    (hmem : ∀ x ∈ L, x ∈ List.range' 1 9) (hnd : L.Nodup) :
    ∀ v ∈ List.range' 1 9, L.count v = 1 := by
  have hperm : L.Perm (List.range' 1 9) :=
    (hnd.subperm hmem).perm_of_length_le (by simp [hlen])
  intro v hv
  rw [hperm.count_eq]
  rcases List.mem_range'.1 hv with ⟨i, hi, rfl⟩
  interval_cases i <;> rfl

lemma validSolution_of_invariants {b : Board} (hwf : WF b) (hnc : noConflict b)
    (hle : cellsLe9 b) (hfe : findEmpty b = none) : validSolution b := by
  have hcomplete := findEmpty_none hfe
  intro v hv k hk'
  have hk : k < 9 := List.mem_range.1 hk'
  refine ⟨?_, ?_, ?_⟩
  · have hget : ∀ m, m < 9 → (rowList b k)[m]? =
        some (getCell b ((fun m => ((k : Nat), m)) m).1 ((fun m => ((k : Nat), m)) m).2) :=
      fun m hm => rowList_getElem? hwf hk hm
    refine count_unit _ (length_rowList hwf hk) ?_ ?_ v hv
    · exact mem_unit_range hle hcomplete _ _ (length_rowList hwf hk)
        (fun m hm => ⟨hk, hm⟩) hget
    · refine nodup_unit hnc hcomplete _ _ (length_rowList hwf hk)
        (fun m hm => ⟨hk, hm⟩) hget (fun m m' _ _ h => congrArg Prod.snd h) ?_
      intro m m' _ _
      exact Or.inl rfl
  · have hget : ∀ m, m < 9 → (colList b k)[m]? =
        some (getCell b ((fun m => (m, (k : Nat))) m).1 ((fun m => (m, (k : Nat))) m).2) :=
      fun m hm => colList_getElem? b hm
    refine count_unit _ (length_colList b k) ?_ ?_ v hv
    · exact mem_unit_range hle hcomplete _ _ (length_colList b k)
        (fun m hm => ⟨hm, hk⟩) hget
    · refine nodup_unit hnc hcomplete _ _ (length_colList b k)
        (fun m hm => ⟨hm, hk⟩) hget (fun m m' _ _ h => congrArg Prod.fst h) ?_
      intro m m' _ _
      exact Or.inr (Or.inl rfl)
  · have hget : ∀ m, m < 9 → (boxList b k)[m]? =
        some (getCell b ((fun m => (k / 3 * 3 + m / 3, k % 3 * 3 + m % 3)) m).1
          ((fun m => (k / 3 * 3 + m / 3, k % 3 * 3 + m % 3)) m).2) :=
      fun m hm => boxList_getElem? b hm
    have hposlt : ∀ m, m < 9 →
        ((fun m => (k / 3 * 3 + m / 3, k % 3 * 3 + m % 3)) m).1 < 9 ∧
        ((fun m => (k / 3 * 3 + m / 3, k % 3 * 3 + m % 3)) m).2 < 9 := by
      intro m hm
      constructor <;> simp only <;> omega
    refine count_unit _ (length_boxList b k) ?_ ?_ v hv
    · exact mem_unit_range hle hcomplete _ _ (length_boxList b k) hposlt hget
    · refine nodup_unit hnc hcomplete _ _ (length_boxList b k) hposlt hget ?_ ?_
      · intro m m' hm hm' h
        have h1 := congrArg Prod.fst h
        have h2 := congrArg Prod.snd h
        simp only at h1 h2
        omega
      · intro m m' hm hm'
        refine Or.inr (Or.inr ⟨?_, ?_⟩)
        · simp only
          omega
        · simp only
          omega

/-! ### Removal loop lemmas -/

lemma randint08_le (g : RS) : (randint 0 8 g).1 ≤ 8 :=
  (randint_fst_bounds (by omega) g).2

lemma removeLoop_WF : ∀ (remaining : Nat) (b : Board) (n rem : Nat) (g : RS), WF b →
    WF (removeLoop b n rem remaining g).1 := by
  intro remaining
  induction remaining with
  | zero =>
      intro b n rem g hwf
      exact hwf
  | succ remaining ih =>
      intro b n rem g hwf
      rw [removeLoop]
      by_cases hguard : rem < n
      · rw [if_pos hguard]
        rcases hr1 : randint 0 8 g with ⟨row, g₁⟩
        rcases hr2 : randint 0 8 g₁ with ⟨col, g₂⟩
        simp only [hr1, hr2]
        by_cases hcell : getCell b row col ≠ 0
        · rw [if_pos hcell]
          exact ih _ _ _ _ (WF_setCell hwf _ _ 0)
        · rw [if_neg hcell]
          exact ih _ _ _ _ hwf
      · rw [if_neg hguard]
        exact hwf

lemma removeLoop_cells : ∀ (remaining : Nat) (b : Board) (n rem : Nat) (g : RS), WF b →
    ∀ r c, getCell (removeLoop b n rem remaining g).1 r c ≠ 0 →
      getCell (removeLoop b n rem remaining g).1 r c = getCell b r c := by
  intro remaining
  induction remaining with
  | zero =>
      intro b n rem g hwf r c _
      rfl
  | succ remaining ih =>
      intro b n rem g hwf r c
      rw [removeLoop]
      by_cases hguard : rem < n
      · rw [if_pos hguard]
        rcases hr1 : randint 0 8 g with ⟨row, g₁⟩
        rcases hr2 : randint 0 8 g₁ with ⟨col, g₂⟩
        simp only [hr1, hr2]
        by_cases hcell : getCell b row col ≠ 0
        · rw [if_pos hcell]
          intro hnz
          have hrow : row ≤ 8 := by
            have := randint08_le g
            rw [hr1] at this
            exact this
          have hcol : col ≤ 8 := by
            have := randint08_le g₁
            rw [hr2] at this
            exact this
          have step := ih _ _ _ _ (WF_setCell hwf _ _ 0) r c hnz
          rw [step]
          by_cases hrc : row = r ∧ col = c
          · obtain ⟨rfl, rfl⟩ := hrc
            rw [getCell_setCell_same hwf 0 (by omega) (by omega)] at step
            rw [step] at hnz
            exact absurd rfl hnz
          · exact getCell_setCell_ne 0 (by tauto)
        · rw [if_neg hcell]
          exact ih _ _ _ _ hwf r c
      · rw [if_neg hguard]
        exact fun _ => rfl

lemma removeLoop_filled_ge : ∀ (remaining : Nat) (b : Board) (n rem : Nat) (g : RS),
    WF b → numFilled b ≤ numFilled (removeLoop b n rem remaining g).1 + (n - rem) := by
  intro remaining
  induction remaining with
  | zero =>
      intro b n rem g hwf
      show numFilled b ≤ numFilled b + (n - rem)
      omega
  | succ remaining ih =>
      intro b n rem g hwf
      rw [removeLoop]
      by_cases hguard : rem < n
      · rw [if_pos hguard]
        rcases hr1 : randint 0 8 g with ⟨row, g₁⟩
        rcases hr2 : randint 0 8 g₁ with ⟨col, g₂⟩
        simp only [hr1, hr2]
        by_cases hcell : getCell b row col ≠ 0
        · rw [if_pos hcell]
          have hrow : row ≤ 8 := by
            have := randint08_le g
            rw [hr1] at this
            exact this
          have hcol : col ≤ 8 := by
            have := randint08_le g₁
            rw [hr2] at this
            exact this
          have hdec := numFilled_setCell_zero hwf (by omega) (by omega) hcell
          have := ih (setCell b row col 0) n (rem + 1) g₂ (WF_setCell hwf _ _ 0)
          omega
        · rw [if_neg hcell]
          exact ih _ _ _ _ hwf
      · rw [if_neg hguard]
        show numFilled b ≤ numFilled b + (n - rem)
        omega

lemma removeLoopCount_le : ∀ (remaining : Nat) (b : Board) (n rem : Nat) (g : RS),
    removeLoopCount b n rem remaining g ≤ remaining := by
  intro remaining
  induction remaining with
  | zero =>
      intro b n rem g
      exact Nat.le_refl _
  | succ remaining ih =>
      intro b n rem g
      rw [removeLoopCount]
      by_cases hguard : rem < n
      · rw [if_pos hguard]
        rcases hr1 : randint 0 8 g with ⟨row, g₁⟩
        rcases hr2 : randint 0 8 g₁ with ⟨col, g₂⟩
        simp only [hr1, hr2]
        by_cases hcell : getCell b row col ≠ 0
        · rw [if_pos hcell]
          have := ih (setCell b row col 0) n (rem + 1) g₂
          omega
        · rw [if_neg hcell]
          have := ih b n rem g₂
          omega
      · rw [if_neg hguard]
        omega

/-! ### `generate` inversion and the concrete witness run -/

lemma generate_some {d : String} {g : RS} {p s : Board} {g' : RS}
    (h : generate d g = some (some (p, s), g')) :
    ∃ g₁, solveB 82 emptyBoard g = some (true, s, g₁) ∧
      remove_cells s d g₁ = (p, g') := by
  unfold generate at h
  cases hs : solveB 82 emptyBoard g with
  | none => rw [hs] at h; simp at h
  | some res =>
      obtain ⟨ok, b₁, g₁⟩ := res
      rw [hs] at h
      cases ok with
      | false => simp at h
      | true =>
          rcases hrc : remove_cells b₁ d g₁ with ⟨p₂, g₂⟩
          have h' : (match remove_cells b₁ d g₁ with
              | (puzzle, g₂) => some (some (puzzle, b₁), g₂)) =
              some (some (p, s), g') := h
          rw [hrc] at h'
          simp only [Option.some.injEq, Prod.mk.injEq] at h'
          obtain ⟨⟨hp, hsb⟩, hg⟩ := h'
          subst hsb
          exact ⟨g₁, rfl, by rw [hrc, hp, hg]⟩

lemma solution_invariants {d : String} {g : RS} {p s : Board} {g' : RS}
    (h : generate d g = some (some (p, s), g')) :
    WF s ∧ noConflict s ∧ cellsLe9 s ∧ findEmpty s = none := by
  rcases generate_some h with ⟨g₁, hs, -⟩
  exact solveB_sound 82 emptyBoard g WF_emptyBoard noConflict_emptyBoard
    cellsLe9_emptyBoard hs

set_option maxRecDepth 1000000 in
set_option maxHeartbeats 4000000 in
/-- The concrete run used by the witnesses: on the all-zero random stream
`generate "Easy"` returns `(wPuzzle, wSolution)`. -/
lemma wgen_eq : generate "Easy" [] = some (some (wPuzzle, wSolution), []) := by
  decide

/-! ### Claims -/

/-- C1.  For every (puzzle, solution) pair returned by a successful
`BacktrackingSudokuGenerator.generate` call, the solution grid is a
complete valid Sudoku: every row, every column, and every non-overlapping
3×3 box contains each value 1–9 exactly once. -/
theorem generate_solution_valid (d : String) (g : RS) (p s : Board) (g' : RS)
    (h : generate d g = some (some (p, s), g')) : validSolution s := by
  obtain ⟨hwf, hnc, hle, hfe⟩ := solution_invariants h
  exact validSolution_of_invariants hwf hnc hle hfe

theorem generate_solution_valid_witness : validSolution wSolution :=
  generate_solution_valid "Easy" [] wPuzzle wSolution [] wgen_eq

/-- C2.  For every (puzzle, solution) pair returned by `generate` and every
position with row and column in 0–8, a non-zero puzzle cell equals the
corresponding solution cell: the puzzle is the solution with a subset of
cells set to 0. -/
theorem generate_puzzle_consistent (d : String) (g : RS) (p s : Board) (g' : RS)
    (h : generate d g = some (some (p, s), g')) :
    ∀ r c, r < 9 → c < 9 → getCell p r c ≠ 0 → getCell p r c = getCell s r c := by
  obtain ⟨hwf, -, -, -⟩ := solution_invariants h
  rcases generate_some h with ⟨g₁, -, hrc⟩
  intro r c _ _ hnz
  rcases hk : get_cells_to_keep (some (Difficulty.ofString d)) g₁ with ⟨k, g₂⟩
  simp only [remove_cells, hk] at hrc
  have hp : p = (removeLoop s (81 - k) 0 200 g₂).1 := by
    rw [hrc]
  rw [hp] at hnz ⊢
  exact removeLoop_cells 200 s (81 - k) 0 g₂ hwf r c hnz

theorem generate_puzzle_consistent_witness :
    getCell wPuzzle 1 1 = getCell wSolution 1 1 :=
  generate_puzzle_consistent "Easy" [] wPuzzle wSolution [] wgen_eq 1 1
    (by decide) (by decide) (by decide)

lemma mem_row_iff {b : Board} {row v : Nat} (hwf : WF b) (hr : row < 9) :
    v ∈ b.getD row [] ↔ ∃ j, j < 9 ∧ getCell b row j = v := by
  have hlen : (b.getD row []).length = 9 := length_rowList hwf hr
  constructor
  · intro hv
    rcases List.mem_iff_getElem.1 hv with ⟨j, hj, hjv⟩
    have hj9 : j < 9 := by omega
    have hget : (b.getD row [])[j]? = some (getCell b row j) :=
      rowList_getElem? hwf hr hj9
    rw [List.getElem?_eq_getElem hj] at hget
    simp only [Option.some.injEq] at hget
    exact ⟨j, hj9, hget.symm.trans hjv⟩
  · rintro ⟨j, hj9, hjv⟩
    have hget : (b.getD row [])[j]? = some (getCell b row j) :=
      rowList_getElem? hwf hr hj9
    rw [hjv] at hget
    exact List.getElem?_mem hget

lemma getD_setCell {b : Board} (hwf : WF b) {r : Nat} (hr : r < 9) (c v : Nat) :
    (setCell b r c v).getD r [] = (b.getD r []).set c v := by
  have hrl : r < b.length := by rw [hwf.1]; exact hr
  rw [setCell_eq, List.getD_eq_getElem?_getD, List.getElem?_set, if_pos rfl,
    if_pos hrl, Option.getD_some, ← List.getD_eq_getElem?_getD]

lemma mem_set_zero_iff {xs : List Nat} {c v : Nat} (hcl : c < xs.length)
    (hxc : xs.getD c 0 ≠ v) (hv0 : v ≠ 0) : v ∈ xs.set c 0 ↔ v ∈ xs := by
  constructor
  · intro h
    rcases List.mem_or_eq_of_mem_set h with h' | h'
    · exact h'
    · exact absurd h' hv0
  · intro h
    rcases List.mem_iff_getElem.1 h with ⟨j, hj, hjv⟩
    have hjc : j ≠ c := by
      intro hcon
      subst hcon
      apply hxc
      rw [List.getD_eq_getElem?_getD, List.getElem?_eq_getElem hj, Option.getD_some, hjv]
    refine List.mem_iff_getElem.2 ⟨j, by simpa using hj, ?_⟩
    rw [List.getElem_set, if_neg (Ne.symm hjc)]
    exact hjv

lemma get_cells_to_keep_bounds (d : Option Difficulty) (g : RS) :
    keepLo d ≤ (get_cells_to_keep d g).1 ∧ (get_cells_to_keep d g).1 ≤ keepHi d := by
  rcases d with _ | dd
  · show 32 ≤ (randint 32 39 g).1 ∧ (randint 32 39 g).1 ≤ 39
    exact randint_fst_bounds (by omega) g
  · cases dd with
    | EASY =>
        show 40 ≤ (randint 40 45 g).1 ∧ (randint 40 45 g).1 ≤ 45
        exact randint_fst_bounds (by omega) g
    | MEDIUM =>
        show 32 ≤ (randint 32 39 g).1 ∧ (randint 32 39 g).1 ≤ 39
        exact randint_fst_bounds (by omega) g
    | HARD =>
        show 25 ≤ (randint 25 31 g).1 ∧ (randint 25 31 g).1 ≤ 31
        exact randint_fst_bounds (by omega) g
    | EXPERT =>
        show 17 ≤ (randint 17 24 g).1 ∧ (randint 17 24 g).1 ≤ 24
        exact randint_fst_bounds (by omega) g

/-- C5.  The difficulty string is matched case-insensitively: two strings
equal up to letter casing make `generate` behave identically — in
particular the cells-to-keep range used for removal is that of the named
difficulty, not the Medium fallback. -/
theorem generate_case_insensitive (d₁ d₂ : String) (g : RS)
    (h : lowerStr d₁ = lowerStr d₂) : generate d₁ g = generate d₂ g := by
  have hof : Difficulty.ofString d₁ = Difficulty.ofString d₂ := by
    unfold Difficulty.ofString
    rw [h]
  have hrc : ∀ (b : Board) (g₁ : RS), remove_cells b d₁ g₁ = remove_cells b d₂ g₁ := by
    intro b g₁
    unfold remove_cells
    rw [hof]
  unfold generate
  cases solveB 82 emptyBoard g with
  | none => rfl
  | some res =>
      obtain ⟨ok, b₁, g₁⟩ := res
      cases ok with
      | false => rfl
      | true =>
          simp only
          rw [hrc b₁ g₁]

theorem generate_case_insensitive_witness :
    generate "expert" [] = generate "Expert" [] :=
  generate_case_insensitive "expert" "Expert" [] (by decide)

/-- C6.  `DifficultyManager.get_cells_to_keep` draws from the inclusive
range of the difficulty — Easy 40–45, Medium 32–39, Hard 25–31,
Expert 17–24, and the Medium range 32–39 for any unrecognized value
(modelled `none`) — every draw lands in the range, every value of the
range is attained by some random stream, and the function is total
(never raises). -/
theorem get_cells_to_keep_spec :
    (∀ (d : Option Difficulty) (g : RS),
      keepLo d ≤ (get_cells_to_keep d g).1 ∧ (get_cells_to_keep d g).1 ≤ keepHi d) ∧
    (∀ (d : Option Difficulty) (t : Nat), keepLo d ≤ t → t ≤ keepHi d →
      ∃ g, (get_cells_to_keep d g).1 = t) := by
  refine ⟨get_cells_to_keep_bounds, ?_⟩
  intro d t h1 h2
  rcases d with _ | dd
  · have h1' : 32 ≤ t := h1
    have h2' : t ≤ 39 := h2
    refine ⟨[t - 32], ?_⟩
    show 32 + (t - 32) % (39 + 1 - 32) = t
    rw [Nat.mod_eq_of_lt (by omega)]
    omega
  · cases dd with
    | EASY =>
        have h1' : 40 ≤ t := h1
        have h2' : t ≤ 45 := h2
        refine ⟨[t - 40], ?_⟩
        show 40 + (t - 40) % (45 + 1 - 40) = t
        rw [Nat.mod_eq_of_lt (by omega)]
        omega
    | MEDIUM =>
        have h1' : 32 ≤ t := h1
        have h2' : t ≤ 39 := h2
        refine ⟨[t - 32], ?_⟩
        show 32 + (t - 32) % (39 + 1 - 32) = t
        rw [Nat.mod_eq_of_lt (by omega)]
        omega
    | HARD =>
        have h1' : 25 ≤ t := h1
        have h2' : t ≤ 31 := h2
        refine ⟨[t - 25], ?_⟩
        show 25 + (t - 25) % (31 + 1 - 25) = t
        rw [Nat.mod_eq_of_lt (by omega)]
        omega
    | EXPERT =>
        have h1' : 17 ≤ t := h1
        have h2' : t ≤ 24 := h2
        refine ⟨[t - 17], ?_⟩
        show 17 + (t - 17) % (24 + 1 - 17) = t
        rw [Nat.mod_eq_of_lt (by omega)]
        omega

theorem get_cells_to_keep_spec_witness :
    (40 ≤ (get_cells_to_keep (some .EASY) []).1 ∧
      (get_cells_to_keep (some .EASY) []).1 ≤ 45) ∧
    ∃ g, (get_cells_to_keep none g).1 = 35 :=
  ⟨get_cells_to_keep_spec.1 (some .EASY) [],
    get_cells_to_keep_spec.2 none 35 (by decide) (by decide)⟩

/-- C7.  `generate` never throws: on every input it returns a value, and
that value is the null pair (modelled `none`) exactly when the solver
failed — exhaustion of the removal attempt budget never prevents the
puzzle from being returned. -/
theorem generate_no_throw : ∀ (d : String) (g : RS), ∃ out g',
    generate d g = some (out, g') ∧
    (out = none ↔ ∃ b g₁, solveB 82 emptyBoard g = some (false, b, g₁)) := by
  intro d g
  have hsome := solveB_isSome 82 emptyBoard g WF_emptyBoard
    (by rw [numEmpty_emptyBoard]; omega)
  cases hs : solveB 82 emptyBoard g with
  | none => rw [hs] at hsome; simp at hsome
  | some res =>
      obtain ⟨ok, b₁, g₁⟩ := res
      cases ok with
      | false =>
          refine ⟨none, g₁, ?_, ?_⟩
          · simp only [generate, hs]
          · exact ⟨fun _ => ⟨b₁, g₁, rfl⟩, fun _ => rfl⟩
      | true =>
          rcases hrc : remove_cells b₁ d g₁ with ⟨p₂, g₂⟩
          refine ⟨some (p₂, b₁), g₂, ?_, ?_⟩
          · simp only [generate, hs, hrc]
          · constructor
            · intro hcon
              simp at hcon
            · rintro ⟨b₂, g₃, hcon⟩
              simp at hcon

/-- C8.  Both core loops terminate: the backtracking recursion returns a
value whenever its fuel exceeds the number of empty cells (each placement
strictly reduces the empty count), the cell-removal loop runs its body at
most 200 times (the fixed attempt budget), and hence `generate` always
returns. -/
theorem termination_props :
    (∀ (fuel : Nat) (b : Board) (g : RS), WF b → numEmpty b < fuel →
      (solveB fuel b g).isSome) ∧
    (∀ (b : Board) (n rem : Nat) (g : RS), removeLoopCount b n rem 200 g ≤ 200) ∧
    (∀ (d : String) (g : RS), (generate d g).isSome) := by
  refine ⟨solveB_isSome, fun b n rem g => removeLoopCount_le 200 b n rem g, ?_⟩
  intro d g
  have hsome := solveB_isSome 82 emptyBoard g WF_emptyBoard
    (by rw [numEmpty_emptyBoard]; omega)
  cases hs : solveB 82 emptyBoard g with
  | none => rw [hs] at hsome; simp at hsome
  | some res =>
      obtain ⟨ok, b₁, g₁⟩ := res
      cases ok with
      | false =>
          simp only [generate, hs]
          rfl
      | true =>
          rcases hrc : remove_cells b₁ d g₁ with ⟨p₂, g₂⟩
          simp only [generate, hs, hrc]
          rfl

theorem termination_props_witness :
    (solveB 82 emptyBoard []).isSome ∧
    removeLoopCount emptyBoard 49 0 200 [] ≤ 200 ∧
    (generate "Hard" []).isSome :=
  ⟨termination_props.1 82 emptyBoard [] WF_emptyBoard (by decide),
    termination_props.2.1 emptyBoard 49 0 [],
    termination_props.2.2 "Hard" []⟩

/-- C9.  Failure of the backtracking solver is atomic: whenever
`_solve_board` returns False, the board is exactly as it was at entry —
every tentative placement of the failed search has been reset to 0. -/
theorem solve_board_failure_restores (fuel : Nat) (b : Board) (g : RS)
    (b' : Board) (g' : RS) (h : solveB fuel b g = some (false, b', g')) : b' = b :=
  solveB_false fuel b g h

theorem solve_board_failure_restores_witness : wFailBoard = wFailBoard :=
  solve_board_failure_restores 82 wFailBoard [] wFailBoard [] (by decide)

/-- C10.  Cell removal never overshoots: the loop zeroes at most
`cellsToRemove - removed` further cells, so every puzzle returned by
`generate` keeps at least the drawn cells-to-keep count, hence at least
the lower bound of the resolved difficulty's range. -/
theorem removal_never_overshoots :
    (∀ (remaining : Nat) (b : Board) (n rem : Nat) (g : RS), WF b →
      numFilled b ≤ numFilled (removeLoop b n rem remaining g).1 + (n - rem)) ∧
    (∀ (d : String) (g : RS) (p s : Board) (g' : RS),
      generate d g = some (some (p, s), g') →
      keepLo (some (Difficulty.ofString d)) ≤ numFilled p) := by
  refine ⟨removeLoop_filled_ge, ?_⟩
  intro d g p s g' h
  obtain ⟨hwf, -, -, hfe⟩ := solution_invariants h
  rcases generate_some h with ⟨g₁, -, hrc⟩
  rcases hk : get_cells_to_keep (some (Difficulty.ofString d)) g₁ with ⟨k, g₂⟩
  simp only [remove_cells, hk] at hrc
  have hp : p = (removeLoop s (81 - k) 0 200 g₂).1 := by rw [hrc]
  have hfull : numFilled s = 81 := numFilled_of_complete (findEmpty_none hfe)
  have hge := removeLoop_filled_ge 200 s (81 - k) 0 g₂ hwf
  have hb := get_cells_to_keep_bounds (some (Difficulty.ofString d)) g₁
  rw [hk] at hb
  have hb1 : keepLo (some (Difficulty.ofString d)) ≤ k := hb.1
  have hb2 : k ≤ keepHi (some (Difficulty.ofString d)) := hb.2
  have hk81 : k ≤ 81 := by
    have : keepHi (some (Difficulty.ofString d)) ≤ 45 := by
      cases hdd : Difficulty.ofString d <;> simp [keepHi]
    omega
  rw [hp]
  omega

theorem removal_never_overshoots_witness :
    (numFilled wSolution ≤ numFilled (removeLoop wSolution 41 0 200 []).1 + 41) ∧
    40 ≤ numFilled wPuzzle :=
  ⟨removal_never_overshoots.1 200 wSolution 41 0 [] (by unfold WF; decide),
    removal_never_overshoots.2 "Easy" [] wPuzzle wSolution [] wgen_eq⟩

/-- C3.  For a well-formed grid, in-range indices and a value 1–9:
`is_valid_position` returns false exactly when the value already occurs
somewhere in the row, somewhere in the column, or somewhere in the 3×3
box with top-left corner `(row / 3 * 3, col / 3 * 3)`; and
`can_place_number` returns false whenever the target cell is non-zero,
regardless of constraints, and the value of `is_valid_position`
otherwise. -/
theorem validator_characterization (b : Board) (row col v : Nat) (hwf : WF b)
    (hr : row < 9) (hc : col < 9) (h1 : 1 ≤ v) (h9 : v ≤ 9) :
    (is_valid_position b row col v = false ↔
      (∃ j, j < 9 ∧ getCell b row j = v) ∨ (∃ i, i < 9 ∧ getCell b i col = v) ∨
      (∃ i j, row / 3 * 3 ≤ i ∧ i < row / 3 * 3 + 3 ∧ col / 3 * 3 ≤ j ∧
        j < col / 3 * 3 + 3 ∧ getCell b i j = v)) ∧
    can_place_number b row col v =
      (if getCell b row col ≠ 0 then false else is_valid_position b row col v) := by
  constructor
  · constructor
    · intro hfalse
      by_contra hcon
      push_neg at hcon
      have hval : is_valid_position b row col v = true := by
        rw [is_valid_position_iff]
        refine ⟨?_, ?_, ?_⟩
        · intro hmem
          rcases (mem_row_iff hwf hr).1 hmem with ⟨j, hj, hjv⟩
          exact hcon.1 j hj hjv
        · intro i hi hgi
          exact hcon.2.1 i hi hgi
        · intro i j hi1 hi2 hj1 hj2 hgij
          exact hcon.2.2 i j hi1 hi2 hj1 hj2 hgij
      rw [hval] at hfalse
      simp at hfalse
    · intro hcon
      have hnot : ¬ is_valid_position b row col v = true := by
        rw [is_valid_position_iff]
        rintro ⟨hrow2, hcol2, hbox2⟩
        rcases hcon with ⟨j, hj, hjv⟩ | ⟨i, hi, hiv⟩ | ⟨i, j, hi1, hi2, hj1, hj2, hgij⟩
        · exact hrow2 ((mem_row_iff hwf hr).2 ⟨j, hj, hjv⟩)
        · exact hcol2 i hi hiv
        · exact hbox2 i j hi1 hi2 hj1 hj2 hgij
      simp only [Bool.not_eq_true] at hnot
      exact hnot
  · by_cases h0 : getCell b row col = 0
    · simp [can_place_number, h0]
    · simp [can_place_number, h0]

theorem validator_characterization_witness :
    (is_valid_position wConflictBoard 0 1 5 = false ↔
      (∃ j, j < 9 ∧ getCell wConflictBoard 0 j = 5) ∨
      (∃ i, i < 9 ∧ getCell wConflictBoard i 1 = 5) ∨
      (∃ i j, 0 / 3 * 3 ≤ i ∧ i < 0 / 3 * 3 + 3 ∧ 1 / 3 * 3 ≤ j ∧
        j < 1 / 3 * 3 + 3 ∧ getCell wConflictBoard i j = 5)) ∧
    can_place_number wConflictBoard 0 1 5 =
      (if getCell wConflictBoard 0 1 ≠ 0 then false
        else is_valid_position wConflictBoard 0 1 5) :=
  validator_characterization wConflictBoard 0 1 5 (by unfold WF; decide)
    (by decide) (by decide) (by decide) (by decide)

/-- C4 counterexample.  `is_valid_position` does read the target cell: on
the board whose only entry is 5 at (0,0), checking 5 at (0,0) returns
false, while on the same board with that cell zeroed it returns true. -/
theorem is_valid_position_reads_target_cell :
    ¬(is_valid_position wConflictBoard 0 0 5 =
      is_valid_position (setCell wConflictBoard 0 0 0) 0 0 5) := by
  decide

/-- C4 (amended).  The result of `is_valid_position` does not depend on
the content of the target cell as long as that content differs from the
candidate value: if `grid[row][col] ≠ value`, the result equals the
result on the grid with `grid[row][col]` replaced by 0. -/
theorem is_valid_position_ignores_distinct_cell (b : Board) (r c v : Nat)
    (hwf : WF b) (hr : r < 9) (hc : c < 9) (h1 : 1 ≤ v) (h9 : v ≤ 9)
    (hne : getCell b r c ≠ v) :
    is_valid_position b r c v = is_valid_position (setCell b r c 0) r c v := by
  have hv0 : v ≠ 0 := by omega
  have hcl : c < (b.getD r []).length := by
    have h9l : (b.getD r []).length = 9 := length_rowList hwf hr
    omega
  have hxc : (b.getD r []).getD c 0 ≠ v := hne
  have e1 : (v ∉ (setCell b r c 0).getD r []) ↔ (v ∉ b.getD r []) := by
    rw [getD_setCell hwf hr]
    exact not_congr (mem_set_zero_iff hcl hxc hv0)
  have e2 : (∀ i, i < 9 → getCell (setCell b r c 0) i c ≠ v) ↔
      (∀ i, i < 9 → getCell b i c ≠ v) := by
    constructor
    · intro H i hi
      by_cases hir : i = r
      · subst hir
        exact hne
      · rw [← getCell_setCell_ne 0 (Or.inl (Ne.symm hir))]
        exact H i hi
    · intro H i hi
      by_cases hir : i = r
      · subst hir
        rw [getCell_setCell_same hwf 0 hr hc]
        omega
      · rw [getCell_setCell_ne 0 (Or.inl (Ne.symm hir))]
        exact H i hi
  have e3 : (∀ i j, r / 3 * 3 ≤ i → i < r / 3 * 3 + 3 → c / 3 * 3 ≤ j →
        j < c / 3 * 3 + 3 → getCell (setCell b r c 0) i j ≠ v) ↔
      (∀ i j, r / 3 * 3 ≤ i → i < r / 3 * 3 + 3 → c / 3 * 3 ≤ j →
        j < c / 3 * 3 + 3 → getCell b i j ≠ v) := by
    constructor
    · intro H i j hb1 hb2 hb3 hb4
      by_cases hij : i = r ∧ j = c
      · obtain ⟨rfl, rfl⟩ := hij
        exact hne
      · have hd : r ≠ i ∨ c ≠ j := by
          rcases not_and_or.1 hij with h | h
          · exact Or.inl (Ne.symm h)
          · exact Or.inr (Ne.symm h)
        rw [← getCell_setCell_ne 0 hd]
        exact H i j hb1 hb2 hb3 hb4
    · intro H i j hb1 hb2 hb3 hb4
      by_cases hij : i = r ∧ j = c
      · obtain ⟨rfl, rfl⟩ := hij
        rw [getCell_setCell_same hwf 0 hr hc]
        omega
      · have hd : r ≠ i ∨ c ≠ j := by
          rcases not_and_or.1 hij with h | h
          · exact Or.inl (Ne.symm h)
          · exact Or.inr (Ne.symm h)
        rw [getCell_setCell_ne 0 hd]
        exact H i j hb1 hb2 hb3 hb4
  rw [Bool.eq_iff_iff, is_valid_position_iff, is_valid_position_iff, e1, e2, e3]

theorem is_valid_position_ignores_distinct_cell_witness :
    is_valid_position wConflictBoard 0 1 5 =
      is_valid_position (setCell wConflictBoard 0 1 0) 0 1 5 :=
  is_valid_position_ignores_distinct_cell wConflictBoard 0 1 5
    (by unfold WF; decide) (by decide) (by decide) (by decide) (by decide)
    (by decide)

end Sudoku
